import Mathlib

/-!
Verification development for the `codebasegpt` code-graph indexer.

The development shallowly embeds the data model and operations of
`codebasegpt/graph.py`, `codebasegpt/indexer.py` and the retrieval core of
`codebasegpt/ai.py`: the three-table relational store, SQLite transaction
visibility (committed state versus the open transaction), the Python
syntax-tree analyzer with its lexical scope stack, the per-file indexing
loop, term extraction and evidence scoring.  Machine behaviour that matters
is modelled explicitly: SQLite rowid allocation, the `UNIQUE` constraint's
treatment of NULL (NULL is distinct from every value, including NULL), the
`IS` comparison, NULLS-first ascending ordering, and commit points.
-/

/-- A row of the `files` table: `files(id, path UNIQUE, language)`. -/
structure FileRow where
  id : Nat
  path : String
  language : String
  deriving DecidableEq

/-- A row of the `symbols` table:
`symbols(id, file_id, name, kind, lineno)` with
`UNIQUE(file_id, name, kind, lineno)`; `lineno` is nullable. -/
structure SymbolRow where
  id : Nat
  file_id : Nat
  name : String
  kind : String
  lineno : Option Nat
  deriving DecidableEq

/-- A row of the `relations` table:
`relations(id, src_symbol_id NULLABLE, dst_symbol_name, relation_type, file_id, lineno NULLABLE)`. -/
structure RelationRow where
  id : Nat
  src_symbol_id : Option Nat
  dst_symbol_name : String
  relation_type : String
  file_id : Nat
  lineno : Option Nat
  deriving DecidableEq

/-- The three tables of the store, rows kept in rowid (insertion) order. -/
structure Store where
  files : List FileRow
  symbols : List SymbolRow
  relations : List RelationRow
  deriving DecidableEq

def emptyStore : Store := ⟨[], [], []⟩

/-- SQLite rowid allocation for `INTEGER PRIMARY KEY` without `AUTOINCREMENT`:
one more than the largest rowid currently in the table, 1 when empty. -/
def nextId (ids : List Nat) : Nat := ids.foldr max 0 + 1

/-- `DELETE FROM relations` of `reset_repository`. -/
def clearRelations (s : Store) : Store := { s with relations := [] }

/-- `DELETE FROM symbols` of `reset_repository`. -/
def clearSymbols (s : Store) : Store := { s with symbols := [] }

/-- `DELETE FROM files` of `reset_repository`. -/
def clearFiles (s : Store) : Store := { s with files := [] }

/-- `upsert_file` from `graph.py`: `INSERT OR IGNORE INTO files(path, language)`
(the insert is ignored exactly when a row with this path exists, because
`path` is `UNIQUE`), then `SELECT id FROM files WHERE path = ?`.  The
`assert row is not None` branch is unreachable; pairing it with the dummy id
0 keeps the function total. -/
def upsert_file (s : Store) (path language : String) : Nat × Store :=
  let s' := if s.files.any (fun r => r.path == path) then s
    else { s with files := s.files ++ [⟨nextId (s.files.map (fun r => r.id)), path, language⟩] }
  ((match s'.files.find? (fun r => r.path == path) with
    | some r => r.id
    | none => 0), s')

/-- Does a stored symbol row conflict with the incoming key for
`UNIQUE(file_id, name, kind, lineno)`?  SQLite considers NULL distinct from
every value, *including another NULL*, so a NULL `lineno` never conflicts. -/
def symUniqueConflict (r : SymbolRow) (fid : Nat) (name kind : String) (ln : Option Nat) : Bool :=
  r.file_id == fid && r.name == name && r.kind == kind &&
    (match r.lineno, ln with
     | some a, some b => a == b
     | _, _ => false)

/-- The `SELECT ... WHERE file_id=? AND name=? AND kind=? AND lineno IS ?`
row test: `IS` compares NULL equal to NULL. -/
def symSelectMatch (r : SymbolRow) (fid : Nat) (name kind : String) (ln : Option Nat) : Bool :=
  r.file_id == fid && r.name == name && r.kind == kind && r.lineno == ln

/-- `insert_symbol` from `graph.py`:
`INSERT OR IGNORE INTO symbols(file_id, name, kind, lineno)` followed by the
`SELECT ... lineno IS ?` lookup, returning the first matching row's id (rows
are scanned in storage order).  The `assert` branch is again total-encoded. -/
def insert_symbol (s : Store) (file_id : Nat) (name kind : String) (lineno : Option Nat) :
    Nat × Store :=
  let s' := if s.symbols.any (fun r => symUniqueConflict r file_id name kind lineno) then s
    else { s with symbols := s.symbols ++
      [⟨nextId (s.symbols.map (fun r => r.id)), file_id, name, kind, lineno⟩] }
  ((match s'.symbols.find? (fun r => symSelectMatch r file_id name kind lineno) with
    | some r => r.id
    | none => 0), s')

/-- `insert_relation` from `graph.py`: a pure append. -/
def insert_relation (s : Store) (file_id : Nat) (dst_symbol_name relation_type : String)
    (lineno : Option Nat) (src_symbol_id : Option Nat) : Store :=
  { s with relations := s.relations ++
      [⟨nextId (s.relations.map (fun r => r.id)), src_symbol_id, dst_symbol_name,
        relation_type, file_id, lineno⟩] }

/-- A result row of `callers_of`: `SELECT f.path, s.name as caller, r.lineno`. -/
structure CallerRow where
  path : String
  caller : Option String
  lineno : Option Nat
  deriving DecidableEq

/-- SQLite ascending `ORDER BY` on a nullable integer column: NULL sorts first. -/
def nullsFirstLe (a b : Option Nat) : Prop :=
  match a, b with
  | none, _ => True
  | some _, none => False
  | some x, some y => x ≤ y

instance : DecidableRel nullsFirstLe := fun a b => by
  unfold nullsFirstLe
  cases a <;> cases b <;> infer_instance

/-- The `ORDER BY f.path, r.lineno` ordering of `callers_of`. -/
def callerRowLe (a b : CallerRow) : Prop :=
  a.path < b.path ∨ (a.path = b.path ∧ nullsFirstLe a.lineno b.lineno)

instance : DecidableRel callerRowLe := fun a b => by
  unfold callerRowLe
  infer_instance

/-- The `calls` relations with the requested destination name:
`WHERE r.relation_type = 'calls' AND r.dst_symbol_name = ?`. -/
def callRels (s : Store) (symbol_name : String) : List RelationRow :=
  s.relations.filter (fun r => r.relation_type == "calls" && r.dst_symbol_name == symbol_name)

/-- The joined output row a qualifying relation produces:
`JOIN files f ON f.id = r.file_id` (inner: the row is dropped when the file
row is missing) and `LEFT JOIN symbols s ON s.id = r.src_symbol_id` (the
caller is NULL when the source symbol id is NULL or dangling). -/
def callerRowOf (s : Store) (r : RelationRow) : Option CallerRow :=
  match s.files.find? (fun f => f.id == r.file_id) with
  | none => none
  | some f =>
      some ⟨f.path,
        (r.src_symbol_id.bind (fun sid => s.symbols.find? (fun sy => sy.id == sid))).map
          (fun sy => sy.name),
        r.lineno⟩

/-- `callers_of` from `graph.py`. -/
def callers_of (s : Store) (symbol_name : String) : List CallerRow :=
  List.insertionSort callerRowLe ((callRels s symbol_name).filterMap (callerRowOf s))

/-- The `summary_stats` counts. -/
structure Stats where
  files : Nat
  symbols : Nat
  relations : Nat
  deriving DecidableEq

/-- `summary_stats` from `graph.py`: `COUNT(*)` over the three tables. -/
def summary_stats (s : Store) : Stats := ⟨s.files.length, s.symbols.length, s.relations.length⟩

/-- A SQLite connection's two views of the store: `committed` is what is
durable on disk, `current` additionally holds the open transaction's writes.
A crash or interruption reverts to `committed`. -/
structure DB where
  committed : Store
  current : Store
  deriving DecidableEq

/-- One statement executed on the connection: either a data write inside the
open transaction, or a `conn.commit()`. -/
inductive DBOp where
  | write (f : Store → Store)
  | commit

def applyOp (db : DB) : DBOp → DB
  | .write f => { db with current := f db.current }
  | .commit => { db with committed := db.current }

def runOps (db : DB) (ops : List DBOp) : DB := ops.foldl applyOp db

/-- `init_db`: `executescript(SCHEMA_SQL)` touches no data rows (the schema is
`CREATE TABLE IF NOT EXISTS`), and then commits. -/
def initOps : List DBOp := [.commit]

/-- `reset_repository`: delete all relations, then symbols, then files, and
then `conn.commit()` — the reset is committed on its own, before any write of
the following re-index. -/
def resetOps : List DBOp :=
  [.write clearRelations, .write clearSymbols, .write clearFiles, .commit]

/-- An analyzer-produced symbol (`indexer.Symbol`; the source's class name is
taken by the ambient library). -/
structure PySymbol where
  name : String
  kind : String
  lineno : Option Nat
  deriving DecidableEq

/-- An analyzer-produced relation (`indexer.Relation`; the source's class name
is taken by the ambient library). -/
structure PyRelation where
  dst_symbol_name : String
  relation_type : String
  lineno : Option Nat
  src_symbol_name : Option String
  deriving DecidableEq

/-- `indexer.FileIndexResult`. -/
structure FileIndexResult where
  language : String
  symbols : List PySymbol
  relations : List PyRelation
  deriving DecidableEq

/-- The fragment of the Python expression grammar the analyzer inspects:
names, attribute accesses (`value.attr`), calls, and an opaque constant for
everything else (the visitor has no handler for other expressions and their
leaves hold no further calls in this fragment). -/
inductive PyExpr where
  | nameE (id : String) (lineno : Nat)
  | attributeE (value : PyExpr) (attr : String) (lineno : Nat)
  | callE (func : PyExpr) (args : List PyExpr) (lineno : Nat)
  | constE

/-- The statement fragment the analyzer handles: function/class declarations
(with their bodies), the two import forms, and bare expression statements. -/
inductive PyStmt where
  | functionDef (name : String) (lineno : Nat) (body : List PyStmt)
  | asyncFunctionDef (name : String) (lineno : Nat) (body : List PyStmt)
  | classDef (name : String) (lineno : Nat) (bases : List PyExpr) (body : List PyStmt)
  | importStmt (names : List String) (lineno : Nat)
  | importFromStmt (module : Option String) (names : List String) (lineno : Nat)
  | exprStmt (e : PyExpr)

/-- The mutable state of `PythonAnalyzer`.  Python appends scope names to the
end of `_stack` and reads `_stack[-1]`; here the most recent name is the head
of `stack`, so `_current_symbol` is `stack.head?`. -/
structure AnalyzerState where
  symbols : List PySymbol
  relations : List PyRelation
  stack : List String
  deriving DecidableEq

/-- `PythonAnalyzer._current_symbol`. -/
def currentSymbol (st : AnalyzerState) : Option String := st.stack.head?

/-- The called-name extraction at the top of `visit_Call`: the identifier of a
name, the attribute of an attribute access (discarding the receiver), nothing
otherwise. -/
def calledNameOf : PyExpr → Option String
  | .nameE id _ => some id
  | .attributeE _ attr _ => some attr
  | _ => none

mutual
/-- `PythonAnalyzer.visit_Call` plus the default `generic_visit` descent into
subexpressions.  `if called_name:` is Python truthiness: `None` and the empty
string both skip the append. -/
def visitExpr (st : AnalyzerState) : PyExpr → AnalyzerState
  | .nameE _ _ => st
  | .constE => st
  | .attributeE v _ _ => visitExpr st v
  | .callE f args l =>
      let st1 := match calledNameOf f with
        | some n =>
            if n == "" then st
            else { st with relations := st.relations ++ [(⟨n, "calls", some l, currentSymbol st⟩ : PyRelation)] }
        | none => st
      visitExprs (visitExpr st1 f) args
def visitExprs (st : AnalyzerState) : List PyExpr → AnalyzerState
  | [] => st
  | e :: es => visitExprs (visitExpr st e) es
end

mutual
/-- The statement visitors of `PythonAnalyzer`.  Function and class
declarations record their symbol, push their name for the traversal of their
children and pop it afterwards; `visit_ClassDef` records an `inherits`
relation for each base that is a plain name, and `generic_visit` then walks
the base expressions (before the body, with the class name already pushed). -/
def visitStmt (st : AnalyzerState) : PyStmt → AnalyzerState
  | .functionDef name lineno body =>
      let st1 := { st with symbols := st.symbols ++ [(⟨name, "function", some lineno⟩ : PySymbol)] }
      let st2 := { st1 with stack := name :: st1.stack }
      let st3 := visitStmts st2 body
      { st3 with stack := st3.stack.tail }
  | .asyncFunctionDef name lineno body =>
      let st1 := { st with symbols := st.symbols ++ [(⟨name, "function", some lineno⟩ : PySymbol)] }
      let st2 := { st1 with stack := name :: st1.stack }
      let st3 := visitStmts st2 body
      { st3 with stack := st3.stack.tail }
  | .classDef name lineno bases body =>
      let st1 := { st with symbols := st.symbols ++ [(⟨name, "class", some lineno⟩ : PySymbol)] }
      let st2 := { st1 with relations := st1.relations ++ bases.filterMap (fun b =>
          match b with
          | PyExpr.nameE id _ => some (⟨id, "inherits", some lineno, some name⟩ : PyRelation)
          | _ => none) }
      let st3 := { st2 with stack := name :: st2.stack }
      let st4 := visitStmts (visitExprs st3 bases) body
      { st4 with stack := st4.stack.tail }
  | .importStmt names lineno =>
      { st with relations := st.relations ++ names.map (fun n =>
          (⟨n, "imports", some lineno, currentSymbol st⟩ : PyRelation)) }
  | .importFromStmt module names lineno =>
      let m := match module with | some s => s | none => ""
      { st with relations := st.relations ++ names.map (fun n =>
          (⟨if m == "" then n else m ++ "." ++ n, "imports", some lineno, currentSymbol st⟩ : PyRelation)) }
  | .exprStmt e => visitExpr st e
def visitStmts (st : AnalyzerState) : List PyStmt → AnalyzerState
  | [] => st
  | s :: ss => visitStmts (visitStmt st s) ss
end

/-- Running `PythonAnalyzer` on a module body from its freshly constructed
state. -/
def runAnalyzer (m : List PyStmt) : AnalyzerState := visitStmts ⟨[], [], []⟩ m

/-- `indexer.SUPPORTED_SUFFIXES`. -/
def SUPPORTED_SUFFIXES : List (String × String) :=
  [(".py", "python"), (".js", "javascript"), (".ts", "typescript"), (".rs", "rust"), (".go", "go")]

/-- A Python source file as the indexer sees it:
`none` — `path.read_text` raised; `some none` — `ast.parse` raised; and
`some (some m)` — the parsed module body.  Only the `.py` branch of
`analyze_file` is embedded: the claims under verification exercise the
precise Python analyzer and the read-failure path that is common to every
language, and the line-oriented extractors for the other suffixes have no
parse step that could fail. -/
structure SrcFile where
  read : Option (Option (List PyStmt))

/-- `analyze_file` for a `.py` file: an unreadable or unparsable file yields
the language with empty symbol and relation lists; a parsed file yields the
analyzer's output. -/
def analyze_file (f : SrcFile) : FileIndexResult :=
  let lang := (SUPPORTED_SUFFIXES.lookup ".py").getD ""
  match f.read with
  | none => ⟨lang, [], []⟩
  | some none => ⟨lang, [], []⟩
  | some (some m) =>
      let st := runAnalyzer m
      ⟨lang, st.symbols, st.relations⟩

/-- A file of the repository tree snapshot: its repo-relative path (as
produced by `file_path.relative_to(repo_path)`) and its content. -/
structure TreeFile where
  path : String
  src : SrcFile

/-- The body of the symbol loop in `index_repository`: get-or-create the
symbol row and update `symbol_map` (a later symbol with the same name
overwrites the entry, as a Python dict assignment does). -/
def symStep (fid : Nat) (acc : Store × (String → Option Nat)) (sym : PySymbol) :
    Store × (String → Option Nat) :=
  let is := insert_symbol acc.1 fid sym.name sym.kind sym.lineno
  (is.2, fun n => if n == sym.name then some is.1 else acc.2 n)

/-- The body of the relation loop in `index_repository`: append the relation,
resolving `symbol_map.get(relation.src_symbol_name or "")`. -/
def relStep (fid : Nat) (sm : String → Option Nat) (st : Store) (rel : PyRelation) : Store :=
  insert_relation st fid rel.dst_symbol_name rel.relation_type rel.lineno
    (sm (rel.src_symbol_name.getD ""))

/-- One iteration of the `index_repository` loop: analyze, upsert the file
row, run the symbol loop building `symbol_map`, then the relation loop. -/
def processFile (path : String) (src : SrcFile) (s : Store) : Store :=
  let analysis := analyze_file src
  let fs := upsert_file s path analysis.language
  let sm := analysis.symbols.foldl (symStep fs.1) (fs.2, fun _ => none)
  analysis.relations.foldl (relStep fs.1 sm.2) sm.1

/-- The store after the per-file loop of `index_repository` over a tree. -/
def runFiles (tree : List TreeFile) (s : Store) : Store :=
  tree.foldl (fun acc tf => processFile tf.path tf.src acc) s

/-- The statement sequence of one `index_repository` run: `init_db`, the
optional `reset_repository`, one write per discovered file, and the single
final `conn.commit()`. -/
def indexOps (tree : List TreeFile) (reset : Bool) : List DBOp :=
  initOps ++ (if reset then resetOps else []) ++
    tree.map (fun tf => DBOp.write (processFile tf.path tf.src)) ++ [.commit]

/-- `index_repository`: run the statements and report `summary_stats`. -/
def index_repository (tree : List TreeFile) (db : DB) (reset : Bool) : DB × Stats :=
  let db' := runOps db (indexOps tree reset)
  (db', summary_stats db'.current)

/-- Python's substring test `needle in hay`. -/
def pyIn (needle hay : String) : Bool := decide (needle.data <:+: hay.data)

/-- Python's `str.lower()`, modelled characterwise. -/
def pyLower (s : String) : String := ⟨s.data.map Char.toLower⟩

/-- `ai.QUESTION_PATTERNS`, in dict insertion order. -/
def QUESTION_PATTERNS : List (String × List String) :=
  [("authentication", ["auth", "login", "token", "oauth", "jwt"]),
   ("checkout", ["checkout", "cart", "payment", "order"]),
   ("performance", ["slow", "latency", "timeout", "throughput"])]

/-- `ai.STOPWORDS`. -/
def STOPWORDS : List String :=
  ["where", "what", "does", "happen", "when", "how", "the", "and", "for",
   "with", "from", "that", "this"]

/-- `[a-zA-Z_]`, the first character of the token pattern. -/
def isTokenStart (c : Char) : Bool := c.isAlpha || c == '_'

/-- `[a-zA-Z0-9_]`, the repeated character class of the token pattern. -/
def isTokenChar (c : Char) : Bool := c.isAlphanum || c == '_'

/-- `re.findall(r"[a-zA-Z_][a-zA-Z0-9_]{2,}", q)`: at each position the engine
matches a start character followed by a maximal (greedy) run of at least two
further word characters, emits the match and resumes after it; on failure it
advances one character. -/
def findTokens : List Char → List String
  | [] => []
  | c :: cs =>
      if isTokenStart c then
        let run := cs.takeWhile isTokenChar
        if 2 ≤ run.length then
          String.mk (c :: run) :: findTokens (cs.drop run.length)
        else findTokens cs
      else findTokens cs
termination_by l => l.length
decreasing_by
  · simp only [List.length_cons, List.length_drop]
    omega
  · simp
  · simp

/-- The deduplication loop at the end of `_extract_terms`: keep the first
occurrence of each term. -/
def dedupeSeen (seen : List String) : List String → List String
  | [] => []
  | t :: ts => if seen.contains t then dedupeSeen seen ts else t :: dedupeSeen (t :: seen) ts

/-- `ai._extract_terms`: lower the question; every topic one of whose trigger
keywords occurs in the lowered question contributes its label followed by its
whole trigger list; then the regex tokens that are not stop-words; dedupe
keeping first occurrences; truncate to 10. -/
def _extract_terms (question : String) : List String :=
  let q := pyLower question
  let topicTerms := QUESTION_PATTERNS.foldl
    (fun acc p => if p.2.any (fun kw => pyIn kw q) then acc ++ p.1 :: p.2 else acc) []
  let tokens := (findTokens q.data).filter (fun t => !(STOPWORDS.contains t))
  (dedupeSeen [] (topicTerms ++ tokens)).take 10

/-- A candidate row of `_collect_evidence`'s scored search
(`f.path, s.name AS symbol, s.kind, relation_type, lineno`). -/
structure EvRow where
  path : String
  symbol : String
  kind : String
  relation_type : String
  lineno : Option Nat
  deriving DecidableEq

/-- `hay = f"{row['symbol']} {row['path']} {row['relation_type']}".lower()`. -/
def evHay (row : EvRow) : String :=
  pyLower (row.symbol ++ " " ++ row.path ++ " " ++ row.relation_type)

/-- The candidate score in `_collect_evidence`:
`sum(2 if t in row["symbol"].lower() else 1 for t in terms if t in hay)`,
plus the flat `+2` flow bonus when the relation type is `calls` or `imports`. -/
def evScore (terms : List String) (row : EvRow) : Nat :=
  ((terms.filter (fun t => pyIn t (evHay row))).map
      (fun t => if pyIn t (pyLower row.symbol) then 2 else 1)).sum +
    (if row.relation_type == "calls" || row.relation_type == "imports" then 2 else 0)

/-- The comparison behind `scored.sort(key=lambda x: x[0], reverse=True)`:
descending by score. -/
def scoreDesc (a b : Nat × EvRow) : Prop := b.1 ≤ a.1

instance : DecidableRel scoreDesc := fun a b => by
  unfold scoreDesc
  infer_instance

/-- The ranking tail of `_collect_evidence`: score every candidate, sort
descending by score (Python's sort is stable), keep the top `limit`, return
the rows. -/
def rankEvidence (terms : List String) (rows : List EvRow) (limit : Nat) : List EvRow :=
  ((List.insertionSort scoreDesc (rows.map (fun r => (evScore terms r, r)))).take limit).map
    (fun p => p.2)

mutual
/-- Reference relation extraction for the precise analyzer, written against
the specification's description of scope attribution: instead of a stack it
passes down a single `enclosing` value — the innermost enclosing function or
class declaration (`none` at module scope).  Calls, imports and inheritance
are attributed exactly as §4.2 describes. -/
def specRelsExpr (enclosing : Option String) : PyExpr → List PyRelation
  | .nameE _ _ => []
  | .constE => []
  | .attributeE v _ _ => specRelsExpr enclosing v
  | .callE f args l =>
      (match calledNameOf f with
       | some n => if n == "" then [] else [⟨n, "calls", some l, enclosing⟩]
       | none => []) ++ specRelsExpr enclosing f ++ specRelsExprs enclosing args
def specRelsExprs (enclosing : Option String) : List PyExpr → List PyRelation
  | [] => []
  | e :: es => specRelsExpr enclosing e ++ specRelsExprs enclosing es
end

mutual
/-- Reference relation extraction over statements; a declaration's children
are processed with the declaration itself as the innermost enclosing symbol. -/
def specRelsStmt (enclosing : Option String) : PyStmt → List PyRelation
  | .functionDef name _ body => specRelsStmts (some name) body
  | .asyncFunctionDef name _ body => specRelsStmts (some name) body
  | .classDef name lineno bases body =>
      bases.filterMap (fun b =>
        match b with
        | PyExpr.nameE id _ => some (⟨id, "inherits", some lineno, some name⟩ : PyRelation)
        | _ => none) ++ specRelsExprs (some name) bases ++ specRelsStmts (some name) body
  | .importStmt names lineno =>
      names.map (fun n => (⟨n, "imports", some lineno, enclosing⟩ : PyRelation))
  | .importFromStmt module names lineno =>
      let m := match module with | some s => s | none => ""
      names.map (fun n =>
        (⟨if m == "" then n else m ++ "." ++ n, "imports", some lineno, enclosing⟩ : PyRelation))
  | .exprStmt e => specRelsExpr enclosing e
def specRelsStmts (enclosing : Option String) : List PyStmt → List PyRelation
  | [] => []
  | s :: ss => specRelsStmt enclosing s ++ specRelsStmts enclosing ss
end

mutual
/-- Reference symbol extraction: each function/class declaration is recorded
at entry, then its body's declarations follow. -/
def specSymsStmt : PyStmt → List PySymbol
  | .functionDef name lineno body => ⟨name, "function", some lineno⟩ :: specSymsStmts body
  | .asyncFunctionDef name lineno body => ⟨name, "function", some lineno⟩ :: specSymsStmts body
  | .classDef name lineno _ body => ⟨name, "class", some lineno⟩ :: specSymsStmts body
  | .importStmt _ _ => []
  | .importFromStmt _ _ _ => []
  | .exprStmt _ => []
def specSymsStmts : List PyStmt → List PySymbol
  | [] => []
  | s :: ss => specSymsStmt s ++ specSymsStmts ss
end

/-- Spec-side tokenizer following the claim's words literally: maximal runs of
alphanumeric characters, kept when at least 3 characters long. -/
def specAlnumTokens : List Char → List String
  | [] => []
  | c :: cs =>
      if c.isAlphanum then
        let run := cs.takeWhile Char.isAlphanum
        (if 2 ≤ run.length then [String.mk (c :: run)] else []) ++
          specAlnumTokens (cs.drop run.length)
      else specAlnumTokens cs
termination_by l => l.length
decreasing_by
  · simp only [List.length_cons, List.length_drop]
    omega
  · simp

/-- The claim's reading of `_extract_terms`: topic labels with their whole
trigger sets for every topic whose triggers intersect the lowered question,
then the question's *alphanumeric* tokens of length at least 3 that are not
stop-words, deduplicated keeping first occurrences, truncated to 10 terms. -/
def specClaimTerms (question : String) : List String :=
  let q := pyLower question
  let topicTerms := (QUESTION_PATTERNS.filter (fun p => p.2.any (fun kw => pyIn kw q))).flatMap
    (fun p => p.1 :: p.2)
  let tokens := (specAlnumTokens q.data).filter (fun t => !(STOPWORDS.contains t))
  (dedupeSeen [] (topicTerms ++ tokens)).take 10

/-- The per-term score of the specification's ranking formula: 2 when the term
occurs in the symbol's name, else 1 when it occurs anywhere in the
concatenated name/path/relation-type text, else 0. -/
def termScore (row : EvRow) (t : String) : Nat :=
  if pyIn t (pyLower row.symbol) then 2 else if pyIn t (evHay row) then 1 else 0

/-- The specification's candidate score: the sum of per-term scores plus the
flat `+2` bonus for `calls`/`imports` relation types. -/
def specEvScore (terms : List String) (row : EvRow) : Nat :=
  (terms.map (termScore row)).sum +
    (if row.relation_type == "calls" || row.relation_type == "imports" then 2 else 0)

/-- Do two analyzer symbols of the same file collide on the
`UNIQUE(file_id, name, kind, lineno)` key?  Under SQLite's NULL rule a null
line number never collides. -/
def symClash (a b : PySymbol) : Bool :=
  a.name == b.name && a.kind == b.kind &&
    (match a.lineno, b.lineno with
     | some x, some y => x == y
     | _, _ => false)

/-- Which of one file's analyzer symbols obtain a row of their own: a symbol
is dropped exactly when an already kept symbol of the same file collides with
it on the unique key. -/
def keptSyms (kept : List PySymbol) : List PySymbol → List PySymbol
  | [] => []
  | s :: rest =>
      if kept.any (fun p => symClash p s) then keptSyms kept rest
      else s :: keptSyms (kept ++ [s]) rest

/-- The content of a symbol row, ignoring the machine-assigned ids. -/
def symFields (r : SymbolRow) : String × String × Option Nat := (r.name, r.kind, r.lineno)

/-- The content of a relation row, ignoring the machine-assigned ids. -/
def relFields (r : RelationRow) : String × String × Option Nat :=
  (r.dst_symbol_name, r.relation_type, r.lineno)

/-- A symbol row seen as an analyzer symbol. -/
def symRowToSymbol (r : SymbolRow) : PySymbol := ⟨r.name, r.kind, r.lineno⟩

/-- The symbol content one tree file contributes to the store. -/
def derivedSymbols (tf : TreeFile) : List (String × String × Option Nat) :=
  (keptSyms [] (analyze_file tf.src).symbols).map (fun s => (s.name, s.kind, s.lineno))

/-- The relation content one tree file contributes to the store. -/
def derivedRelations (tf : TreeFile) : List (String × String × Option Nat) :=
  (analyze_file tf.src).relations.map (fun r => (r.dst_symbol_name, r.relation_type, r.lineno))

mutual
/-- The analyzer's relation output over an expression depends on the scope
stack only through its top, and appends exactly the reference relations. -/
theorem visitExpr_eq (st : AnalyzerState) (e : PyExpr) :
    visitExpr st e = { st with relations := st.relations ++ specRelsExpr st.stack.head? e } := by
  cases e with
  | nameE id l => simp [visitExpr, specRelsExpr]
  | constE => simp [visitExpr, specRelsExpr]
  | attributeE v a l =>
      simp only [visitExpr, specRelsExpr]
      rw [visitExpr_eq st v]
  | callE f args l =>
      simp only [visitExpr, specRelsExpr]
      cases hc : calledNameOf f with
      | none =>
          rw [visitExpr_eq st f, visitExprs_eq _ args]
          simp [List.append_assoc]
      | some n =>
          by_cases hn : n == ""
          · simp only [hn, if_true]
            rw [visitExpr_eq st f, visitExprs_eq _ args]
            simp [List.append_assoc]
          · simp only [hn, if_false]
            rw [visitExpr_eq _ f, visitExprs_eq _ args]
            simp [currentSymbol, List.append_assoc]
theorem visitExprs_eq (st : AnalyzerState) (es : List PyExpr) :
    visitExprs st es = { st with relations := st.relations ++ specRelsExprs st.stack.head? es } := by
  cases es with
  | nil => simp [visitExprs, specRelsExprs]
  | cons e es =>
      simp only [visitExprs, specRelsExprs]
      rw [visitExpr_eq st e, visitExprs_eq _ es]
      simp [List.append_assoc]
end

mutual
/-- The analyzer's behaviour on a statement: the scope stack is restored, the
symbols recorded are the reference symbols, and the relations appended are
the reference relations attributed through the stack top only. -/
theorem visitStmt_eq (st : AnalyzerState) (s : PyStmt) :
    visitStmt st s = { st with symbols := st.symbols ++ specSymsStmt s,
                               relations := st.relations ++ specRelsStmt st.stack.head? s } := by
  cases s with
  | functionDef name lineno body =>
      simp only [visitStmt, specSymsStmt, specRelsStmt]
      rw [visitStmts_eq _ body]
      simp [List.append_assoc]
  | asyncFunctionDef name lineno body =>
      simp only [visitStmt, specSymsStmt, specRelsStmt]
      rw [visitStmts_eq _ body]
      simp [List.append_assoc]
  | classDef name lineno bases body =>
      simp only [visitStmt, specSymsStmt, specRelsStmt]
      rw [visitExprs_eq _ bases]
      rw [visitStmts_eq _ body]
      simp [List.append_assoc]
  | importStmt names lineno =>
      simp [visitStmt, specSymsStmt, specRelsStmt, currentSymbol]
  | importFromStmt module names lineno =>
      simp [visitStmt, specSymsStmt, specRelsStmt, currentSymbol]
  | exprStmt e =>
      simp only [visitStmt, specSymsStmt, specRelsStmt]
      rw [visitExpr_eq st e]
      simp
theorem visitStmts_eq (st : AnalyzerState) (ss : List PyStmt) :
    visitStmts st ss = { st with symbols := st.symbols ++ specSymsStmts ss,
                                 relations := st.relations ++ specRelsStmts st.stack.head? ss } := by
  cases ss with
  | nil => simp [visitStmts, specSymsStmts, specRelsStmts]
  | cons s ss =>
      simp only [visitStmts, specSymsStmts, specRelsStmts]
      rw [visitStmt_eq st s, visitStmts_eq _ ss]
      simp [List.append_assoc]
end

/-- `runAnalyzer` in closed form: reference symbols, and reference relations
attributed to the innermost enclosing declaration, starting at module scope. -/
theorem runAnalyzer_eq (m : List PyStmt) :
    runAnalyzer m = ⟨specSymsStmts m, specRelsStmts none m, []⟩ := by
  unfold runAnalyzer
  rw [visitStmts_eq]
  simp

theorem le_foldr_max (ids : List Nat) (x : Nat) (hx : x ∈ ids) : x ≤ ids.foldr max 0 := by
  induction ids with
  | nil => cases hx
  | cons a l ih =>
      rcases List.mem_cons.mp hx with h | h
      · subst h
        exact Nat.le_max_left _ _
      · exact le_trans (ih h) (Nat.le_max_right _ _)

/-- Freshly allocated rowids are really fresh. -/
theorem nextId_not_mem (ids : List Nat) : nextId ids ∉ ids := by
  intro h
  have := le_foldr_max ids _ h
  simp only [nextId] at this
  omega

theorem runOps_append (db : DB) (a b : List DBOp) :
    runOps db (a ++ b) = runOps (runOps db a) b := by
  simp [runOps, List.foldl_append]

/-- A run of plain writes never changes the committed state. -/
theorem runOps_writes_committed (l : List DBOp) (db : DB)
    (h : ∀ op ∈ l, ∃ g, op = DBOp.write g) : (runOps db l).committed = db.committed := by
  induction l generalizing db with
  | nil => rfl
  | cons op rest ih =>
      rcases h op (List.mem_cons_self op rest) with ⟨g, rfl⟩
      simpa [runOps, applyOp] using ih _ (fun o ho => h o (List.mem_cons_of_mem _ ho))

/-- Running the per-file writes: the current state folds through
`processFile`, the committed state is untouched. -/
theorem runOps_files (tree : List TreeFile) (db : DB) :
    runOps db (tree.map (fun tf => DBOp.write (processFile tf.path tf.src)))
      = ⟨db.committed, runFiles tree db.current⟩ := by
  induction tree generalizing db with
  | nil => simp [runOps, runFiles]
  | cons tf rest ih =>
      simp only [List.map_cons, runOps, List.foldl_cons] at *
      rw [show applyOp db (DBOp.write (processFile tf.path tf.src))
            = ⟨db.committed, processFile tf.path tf.src db.current⟩ from rfl]
      rw [ih]
      simp [runFiles]

/-- A reset run is insensitive to the starting connection state: it always
ends, committed and current alike, at the store rebuilt from the tree. -/
theorem indexRun_reset_eq (tree : List TreeFile) (db : DB) :
    runOps db (indexOps tree true)
      = ⟨runFiles tree emptyStore, runFiles tree emptyStore⟩ := by
  have hshape : indexOps tree true
      = [DBOp.commit, DBOp.write clearRelations, DBOp.write clearSymbols,
         DBOp.write clearFiles, DBOp.commit]
        ++ (tree.map (fun tf => DBOp.write (processFile tf.path tf.src)) ++ [DBOp.commit]) := by
    simp [indexOps, initOps, resetOps]
  rw [hshape, runOps_append, runOps_append]
  rw [show runOps db [DBOp.commit, DBOp.write clearRelations, DBOp.write clearSymbols,
        DBOp.write clearFiles, DBOp.commit] = ⟨emptyStore, emptyStore⟩ from rfl]
  rw [runOps_files]
  rfl

/-- C1 counterexample: a store holding one committed file row is indexed with
reset enabled over an empty tree; interrupting after the fifth statement —
`reset_repository` has just returned, no final commit has run — leaves a
committed store that is *not* the prior committed state (it is empty):
`reset_repository` commits its deletions on its own. -/
theorem C1_counterexample :
    (runOps ⟨⟨[⟨1, "app.py", "python"⟩], [], []⟩, ⟨[⟨1, "app.py", "python"⟩], [], []⟩⟩
        ((indexOps [] true).take 5)).committed
      ≠ ⟨[⟨1, "app.py", "python"⟩], [], []⟩ := by
  decide

/-- C1 (amended): an indexing run interrupted at any point before its final
commit never exposes an insert of the interrupted run, but which committed
state remains depends on the reset flag.  A reset-*disabled* run always
leaves the store in the prior committed state, as the original claim says.
A reset-*enabled* run does so only while the reset deletions are still
uncommitted (the first four statements); from the moment `reset_repository`
commits — which it does itself, before any re-index write — an interruption
leaves the store *empty*, not in the prior committed state. -/
theorem C1_amended (db : DB) (tree : List TreeFile) (k : Nat)
    (hconn : db.current = db.committed) :
    (k ≤ 4 → (runOps db ((indexOps tree true).take k)).committed = db.committed) ∧
    (5 ≤ k → k ≤ 5 + tree.length →
      (runOps db ((indexOps tree true).take k)).committed = emptyStore) ∧
    (k ≤ 1 + tree.length →
      (runOps db ((indexOps tree false).take k)).committed = db.committed) := by
  have hshape : indexOps tree true
      = [DBOp.commit, DBOp.write clearRelations, DBOp.write clearSymbols,
         DBOp.write clearFiles, DBOp.commit]
        ++ (tree.map (fun tf => DBOp.write (processFile tf.path tf.src)) ++ [DBOp.commit]) := by
    simp [indexOps, initOps, resetOps]
  refine ⟨?_, ?_, ?_⟩
  · intro hk
    rw [hshape]
    interval_cases k <;>
      simp [runOps, applyOp, List.take_succ_cons, List.take_zero, hconn]
  · intro h5 hlen
    rw [hshape]
    have hlen' : 5 ≤ ([DBOp.commit, DBOp.write clearRelations, DBOp.write clearSymbols,
        DBOp.write clearFiles, DBOp.commit] : List DBOp).length := by simp
    rw [List.take_append_eq_append_take, List.take_of_length_le (by simpa using h5)]
    rw [show ([DBOp.commit, DBOp.write clearRelations, DBOp.write clearSymbols,
          DBOp.write clearFiles, DBOp.commit] : List DBOp).length = 5 from rfl]
    have htake : (tree.map (fun tf => DBOp.write (processFile tf.path tf.src))
          ++ [DBOp.commit]).take (k - 5)
        = (tree.map (fun tf => DBOp.write (processFile tf.path tf.src))).take (k - 5) := by
      apply List.take_append_of_le_length
      simp
      omega
    rw [htake, runOps_append]
    rw [show runOps db [DBOp.commit, DBOp.write clearRelations, DBOp.write clearSymbols,
          DBOp.write clearFiles, DBOp.commit] = ⟨emptyStore, emptyStore⟩ from rfl]
    rw [runOps_writes_committed]
    intro op hop
    have := List.take_subset _ _ hop
    rcases List.mem_map.mp this with ⟨tf, _, rfl⟩
    exact ⟨_, rfl⟩
  · intro hlen
    have hshape2 : indexOps tree false
        = DBOp.commit
          :: (tree.map (fun tf => DBOp.write (processFile tf.path tf.src)) ++ [DBOp.commit]) := by
      simp [indexOps, initOps]
    rw [hshape2]
    cases k with
    | zero => simp [runOps]
    | succ m =>
        rw [List.take_succ_cons]
        have htake2 : (tree.map (fun tf => DBOp.write (processFile tf.path tf.src))
              ++ [DBOp.commit]).take m
            = (tree.map (fun tf => DBOp.write (processFile tf.path tf.src))).take m := by
          apply List.take_append_of_le_length
          simp
          omega
        rw [htake2]
        rw [show runOps db (DBOp.commit
              :: (tree.map (fun tf => DBOp.write (processFile tf.path tf.src))).take m)
            = runOps ⟨db.current, db.current⟩
                ((tree.map (fun tf => DBOp.write (processFile tf.path tf.src))).take m)
          from rfl]
        rw [runOps_writes_committed]
        · exact hconn
        · intro op hop
          have := List.take_subset _ _ hop
          rcases List.mem_map.mp this with ⟨tf, _, rfl⟩
          exact ⟨_, rfl⟩

/-- C1 witness: interrupting a concrete run (one committed file row, empty
tree, interruption index 5) is covered by the amended claim's reset-enabled
second phase. -/
theorem C1_amended_witness :
    (runOps ⟨⟨[⟨7, "w.py", "python"⟩], [], []⟩, ⟨[⟨7, "w.py", "python"⟩], [], []⟩⟩
        ((indexOps [] true).take 5)).committed = emptyStore :=
  (C1_amended ⟨⟨[⟨7, "w.py", "python"⟩], [], []⟩, ⟨[⟨7, "w.py", "python"⟩], [], []⟩⟩ [] 5
    rfl).2.1 (by decide) (by decide)

/-- C3: indexing the same tree twice in succession with reset enabled returns
identical file/symbol/relation counts from both runs, and the second run's
final committed store equals the first run's — with reset the store is a
deterministic function of the tree snapshot alone. -/
theorem C3_deterministic_reset (tree : List TreeFile) (db : DB) :
    (index_repository tree (index_repository tree db true).1 true).2
        = (index_repository tree db true).2
      ∧ (index_repository tree (index_repository tree db true).1 true).1.committed
        = (index_repository tree db true).1.committed := by
  constructor <;> simp [index_repository, indexRun_reset_eq]

/-- C4: every call expression analyzed in a Python file yields a `calls`
relation whose originating symbol is the innermost enclosing function/class
declaration (`none` at module scope) — the analyzer's relations coincide with
the reference extraction that passes the innermost enclosing declaration
down; and in particular, indexing a file `def outer: ... inner(...)` from an
empty store makes `callers_of "inner"` return exactly one row whose caller is
`outer` and whose line is the call site's line. -/
theorem C4_scope_attribution :
    (∀ m : List PyStmt, (runAnalyzer m).relations = specRelsStmts none m) ∧
    (∀ (p outer inner : String) (lf lc ln : Nat), inner ≠ "" →
      callers_of (index_repository
          [⟨p, ⟨some (some [.functionDef outer lf
            [.exprStmt (.callE (.nameE inner ln) [] lc)]])⟩⟩]
          ⟨emptyStore, emptyStore⟩ true).1.current inner
        = [⟨p, some outer, some lc⟩]) := by
  constructor
  · intro m
    rw [runAnalyzer_eq]
  · intro p outer inner lf lc ln hne
    have hbe : (inner == "") = false := by simpa using hne
    simp [index_repository, indexRun_reset_eq, runFiles, processFile, symStep, relStep,
      analyze_file, runAnalyzer_eq, specSymsStmts, specSymsStmt, specRelsStmts, specRelsStmt,
      specRelsExpr, specRelsExprs, calledNameOf, SUPPORTED_SUFFIXES, upsert_file, insert_symbol,
      insert_relation, nextId, symUniqueConflict, symSelectMatch, emptyStore, callers_of,
      callRels, callerRowOf, List.insertionSort, List.orderedInsert, hbe]

/-- C4 witness: the concrete file `def outer: inner()` (declaration at line 1,
call at line 2), indexed from an empty store, gives
`callers_of "inner" = [("a.py", outer, 2)]`. -/
theorem C4_scope_attribution_witness :
    callers_of (index_repository
        [⟨"a.py", ⟨some (some [.functionDef "outer" 1
          [.exprStmt (.callE (.nameE "inner" 2) [] 2)]])⟩⟩]
        ⟨emptyStore, emptyStore⟩ true).1.current "inner"
      = [⟨"a.py", some "outer", some 2⟩] :=
  C4_scope_attribution.2 "a.py" "outer" "inner" 1 2 2 (by decide)

mutual
/-- Expression traversal only ever produces `calls` relations. -/
theorem specRelsExpr_calls (enclosing : Option String) (e : PyExpr) :
    ∀ r ∈ specRelsExpr enclosing e, r.relation_type = "calls" := by
  cases e with
  | nameE id l => simp [specRelsExpr]
  | constE => simp [specRelsExpr]
  | attributeE v a l =>
      simpa [specRelsExpr] using specRelsExpr_calls enclosing v
  | callE f args l =>
      intro r hr
      simp only [specRelsExpr, List.mem_append] at hr
      rcases hr with (hr | hr) | hr
      · cases hc : calledNameOf f with
        | none => rw [hc] at hr; simp at hr
        | some n =>
            rw [hc] at hr
            by_cases hn : n == ""
            · simp [hn] at hr
            · simp only [hn, Bool.false_eq_true, if_false, List.mem_singleton] at hr
              subst hr
              rfl
      · exact specRelsExpr_calls enclosing f r hr
      · exact specRelsExprs_calls enclosing args r hr
theorem specRelsExprs_calls (enclosing : Option String) (es : List PyExpr) :
    ∀ r ∈ specRelsExprs enclosing es, r.relation_type = "calls" := by
  cases es with
  | nil => simp [specRelsExprs]
  | cons e es =>
      intro r hr
      simp only [specRelsExprs, List.mem_append] at hr
      rcases hr with hr | hr
      · exact specRelsExpr_calls enclosing e r hr
      · exact specRelsExprs_calls enclosing es r hr
end

/-- C9 counterexample: the class declaration `class C(m.B)` — a single
attribute-shaped base-class reference — produces *no* relation at all: the
analyzer only records `inherits` for bases that are plain names
(`isinstance(base, ast.Name)`), so this base-class reference yields no
`inherits` relation, contrary to the claim. -/
theorem C9_counterexample :
    (runAnalyzer [.classDef "C" 1 [.attributeE (.nameE "m" 1) "B" 1] []]).relations = [] := by
  rw [runAnalyzer_eq]
  simp [specRelsStmts, specRelsStmt, specRelsExprs, specRelsExpr, calledNameOf]

/-- C9 (amended): for a class declaration analyzed by the precise variant,
the `inherits` relations produced are exactly one per base that is a *plain
name*, with the base's name as destination and the declared class itself as
originating symbol; bases of any other expression shape (attribute accesses,
calls, subscripts) are skipped. -/
theorem C9_amended (name : String) (l : Nat) (bases : List PyExpr) :
    ((runAnalyzer [.classDef name l bases []]).relations).filter
        (fun r => r.relation_type == "inherits")
      = bases.filterMap (fun b =>
          match b with
          | PyExpr.nameE id _ => some (⟨id, "inherits", some l, some name⟩ : PyRelation)
          | _ => none) := by
  rw [runAnalyzer_eq]
  simp only [specRelsStmts, specRelsStmt, List.append_nil, List.filter_append]
  have h1 : (bases.filterMap (fun b =>
      match b with
      | PyExpr.nameE id _ => some (⟨id, "inherits", some l, some name⟩ : PyRelation)
      | _ => none)).filter (fun r => r.relation_type == "inherits")
      = bases.filterMap (fun b =>
          match b with
          | PyExpr.nameE id _ => some (⟨id, "inherits", some l, some name⟩ : PyRelation)
          | _ => none) := by
    apply List.filter_eq_self.mpr
    intro a ha
    rcases List.mem_filterMap.mp ha with ⟨b, _, hb⟩
    cases b <;> simp_all [eq_comm]
  have h2 : (specRelsExprs (some name) bases).filter (fun r => r.relation_type == "inherits")
      = [] := by
    apply List.filter_eq_nil_iff.mpr
    intro a ha
    have := specRelsExprs_calls (some name) bases a ha
    simp [this]
  rw [h1, h2]
  simp

/-- For a non-null line number the unique-key conflict test coincides with the
`IS`-based select test. -/
theorem symUniqueConflict_some (r : SymbolRow) (fid : Nat) (name kind : String) (n : Nat) :
    symUniqueConflict r fid name kind (some n) = symSelectMatch r fid name kind (some n) := by
  unfold symUniqueConflict symSelectMatch
  cases r.lineno <;> simp

/-- A null line number never triggers the unique-key conflict: SQLite treats
NULL as distinct from everything, including NULL. -/
theorem symUniqueConflict_none (r : SymbolRow) (fid : Nat) (name kind : String) :
    symUniqueConflict r fid name kind none = false := by
  unfold symUniqueConflict
  cases r.lineno <;> simp

/-- `insert_symbol` when the unique key conflicts: the insert is ignored and
the select runs over the unchanged table. -/
theorem insert_symbol_true (s : Store) (fid : Nat) (name kind : String) (ln : Option Nat)
    (h : s.symbols.any (fun r => symUniqueConflict r fid name kind ln) = true) :
    insert_symbol s fid name kind ln
      = ((match s.symbols.find? (fun r => symSelectMatch r fid name kind ln) with
          | some r => r.id
          | none => 0), s) := by
  simp only [insert_symbol, h]
  rfl

/-- `insert_symbol` when no row conflicts: the row is appended with a fresh
rowid and the select runs over the extended table. -/
theorem insert_symbol_false (s : Store) (fid : Nat) (name kind : String) (ln : Option Nat)
    (h : s.symbols.any (fun r => symUniqueConflict r fid name kind ln) = false) :
    insert_symbol s fid name kind ln
      = ((match (s.symbols ++ [⟨nextId (s.symbols.map (fun r => r.id)), fid, name, kind, ln⟩]
            : List SymbolRow).find? (fun r => symSelectMatch r fid name kind ln) with
          | some r => r.id
          | none => 0),
         { s with symbols := s.symbols ++
            [⟨nextId (s.symbols.map (fun r => r.id)), fid, name, kind, ln⟩] }) := by
  simp only [insert_symbol, h]
  rfl

/-- C2 (amended): `insert_symbol` is a get-or-create keyed by
`(file_id, name, kind, lineno)` for *non-null* `lineno`: called twice with
the same key (on a store holding at most one matching row) the second call
changes nothing, both calls return the same id, and exactly one matching row
remains.  For a *null* `lineno` the `UNIQUE` constraint never fires, so each
call appends a fresh duplicate row — two calls add two matching rows — while
the `lineno IS ?` select still returns the same (first) matching row's id
both times. -/
theorem C2_amended (s : Store) (fid : Nat) (name kind : String) :
    (∀ n : Nat,
      (s.symbols.filter (fun r => symSelectMatch r fid name kind (some n))).length ≤ 1 →
      (insert_symbol (insert_symbol s fid name kind (some n)).2 fid name kind (some n)).2
          = (insert_symbol s fid name kind (some n)).2
        ∧ (insert_symbol (insert_symbol s fid name kind (some n)).2 fid name kind (some n)).1
          = (insert_symbol s fid name kind (some n)).1
        ∧ ((insert_symbol s fid name kind (some n)).2.symbols.filter
            (fun r => symSelectMatch r fid name kind (some n))).length = 1)
    ∧ ((insert_symbol (insert_symbol s fid name kind none).2 fid name kind none).1
          = (insert_symbol s fid name kind none).1
        ∧ ((insert_symbol (insert_symbol s fid name kind none).2
              fid name kind none).2.symbols.filter
            (fun r => symSelectMatch r fid name kind none)).length
          = (s.symbols.filter (fun r => symSelectMatch r fid name kind none)).length + 2) := by
  have hrowAny : ∀ (i fid : Nat) (name kind : String) (ln : Option Nat),
      symSelectMatch (⟨i, fid, name, kind, ln⟩ : SymbolRow) fid name kind ln = true := by
    intro i fid name kind ln
    simp [symSelectMatch]
  constructor
  · intro n hlen
    have hcs : ∀ t : List SymbolRow,
        (t.any fun r => symUniqueConflict r fid name kind (some n))
          = t.any fun r => symSelectMatch r fid name kind (some n) := by
      intro t
      simp [symUniqueConflict_some]
    rcases Nat.le_one_iff_eq_zero_or_eq_one.mp hlen with h0 | h1
    · have hnil : s.symbols.filter (fun r => symSelectMatch r fid name kind (some n)) = [] :=
        List.length_eq_zero.mp h0
      have hany : s.symbols.any (fun r => symUniqueConflict r fid name kind (some n)) = false := by
        rw [hcs]
        apply List.any_eq_false.mpr
        intro x hx hpx
        have hmem : x ∈ s.symbols.filter (fun r => symSelectMatch r fid name kind (some n)) :=
          List.mem_filter.mpr ⟨hx, hpx⟩
        rw [hnil] at hmem
        cases hmem
      have eq1 := insert_symbol_false s fid name kind (some n) hany
      have hany2 : (({ s with symbols := s.symbols ++
          [⟨nextId (s.symbols.map (fun r => r.id)), fid, name, kind, some n⟩] } : Store).symbols.any
            (fun r => symUniqueConflict r fid name kind (some n))) = true := by
        rw [hcs]
        apply List.any_eq_true.mpr
        refine ⟨⟨nextId (s.symbols.map (fun r => r.id)), fid, name, kind, some n⟩, ?_,
          hrowAny _ _ _ _ _⟩
        simp
      have eq2 := insert_symbol_true _ fid name kind (some n) hany2
      refine ⟨?_, ?_, ?_⟩
      · rw [eq1]
        dsimp only
        rw [eq2]
      · rw [eq1]
        dsimp only
        rw [eq2]
      · rw [eq1]
        dsimp only
        simp [List.filter_append, hnil, hrowAny]
    · have hpos : 0 < (s.symbols.filter (fun r => symSelectMatch r fid name kind (some n))).length := by
        omega
      rcases List.exists_mem_of_length_pos hpos with ⟨x, hx⟩
      have hany : s.symbols.any (fun r => symUniqueConflict r fid name kind (some n)) = true := by
        rw [hcs]
        apply List.any_eq_true.mpr
        rcases List.mem_filter.mp hx with ⟨hmem, hpx⟩
        exact ⟨x, hmem, hpx⟩
      have eq1 := insert_symbol_true s fid name kind (some n) hany
      refine ⟨?_, ?_, ?_⟩
      · rw [eq1]
        dsimp only
        rw [eq1]
      · rw [eq1]
        dsimp only
        rw [eq1]
      · rw [eq1]
        dsimp only
        exact h1
  · have hconf : ∀ t : List SymbolRow,
        (t.any fun r => symUniqueConflict r fid name kind none) = false := by
      intro t
      apply List.any_eq_false.mpr
      intro r _
      simp [symUniqueConflict_none]
    have eq1 := insert_symbol_false s fid name kind none (hconf _)
    constructor
    · rw [eq1]
      dsimp only
      rw [insert_symbol_false _ fid name kind none (hconf _)]
      dsimp only
      cases hf : s.symbols.find? (fun r => symSelectMatch r fid name kind none) with
      | some x => simp [List.find?_append, hf]
      | none => simp [List.find?_append, hf, hrowAny]
    · rw [eq1]
      dsimp only
      rw [insert_symbol_false _ fid name kind none (hconf _)]
      dsimp only
      simp [List.filter_append, hrowAny]

/-- C2 counterexample: on a store with one file row, calling `insert_symbol`
twice with the same `(file_id=1, name="f", kind="function", lineno=NULL)` key
leaves *two* matching symbol rows, not one: SQLite's `UNIQUE` constraint
treats NULL line numbers as pairwise distinct, so the second
`INSERT OR IGNORE` is not ignored. -/
theorem C2_counterexample :
    ((insert_symbol (insert_symbol ⟨[⟨1, "a.py", "python"⟩], [], []⟩ 1 "f" "function" none).2
        1 "f" "function" none).2.symbols.filter
      (fun r => symSelectMatch r 1 "f" "function" none)).length = 2 := by
  decide

/-- C2 witness: the non-null half of the amended claim at a concrete input —
two `insert_symbol` calls with key `(1, "f", "function", 3)` on an empty
store leave one matching row and return the same id. -/
theorem C2_amended_witness :
    (insert_symbol (insert_symbol emptyStore 1 "f" "function" (some 3)).2
        1 "f" "function" (some 3)).2
        = (insert_symbol emptyStore 1 "f" "function" (some 3)).2
      ∧ (insert_symbol (insert_symbol emptyStore 1 "f" "function" (some 3)).2
          1 "f" "function" (some 3)).1
        = (insert_symbol emptyStore 1 "f" "function" (some 3)).1
      ∧ ((insert_symbol emptyStore 1 "f" "function" (some 3)).2.symbols.filter
          (fun r => symSelectMatch r 1 "f" "function" (some 3))).length = 1 :=
  (C2_amended emptyStore 1 "f" "function").1 3 (by decide)

/-- C10: calling `upsert_file` with a path already present in the store — and
*any* language, including one differing from the stored language — returns
the existing row's id and leaves the entire store (the stored language and
every other field of every row in every table) unchanged: the
`INSERT OR IGNORE` is ignored on the `UNIQUE` path conflict and the select
finds the existing row. -/
theorem C10_upsert_frame (s : Store) (path language : String) (f : FileRow)
    (hf : s.files.find? (fun r => r.path == path) = some f) :
    upsert_file s path language = (f.id, s) := by
  have hp := List.find?_some hf
  have hm := List.mem_of_find?_eq_some hf
  have hany : s.files.any (fun r => r.path == path) = true :=
    List.any_eq_true.mpr ⟨f, hm, hp⟩
  simp only [upsert_file, hany, if_true]
  rw [hf]

/-- C10 witness: upserting path `"a.py"` with the different language `"go"`
over a store storing `("a.py", "python")` returns the stored id 5 and the
unchanged store. -/
theorem C10_upsert_frame_witness :
    upsert_file ⟨[⟨5, "a.py", "python"⟩], [], []⟩ "a.py" "go"
      = (5, ⟨[⟨5, "a.py", "python"⟩], [], []⟩) :=
  C10_upsert_frame ⟨[⟨5, "a.py", "python"⟩], [], []⟩ "a.py" "go" ⟨5, "a.py", "python"⟩
    (by decide)

/-- The topic loop of `_extract_terms` written as filter-plus-flatten. -/
theorem topicFold_eq (tbl : List (String × List String)) (cond : String × List String → Bool)
    (acc : List String) :
    tbl.foldl (fun acc p => if cond p then acc ++ p.1 :: p.2 else acc) acc
      = acc ++ (tbl.filter cond).flatMap (fun p => p.1 :: p.2) := by
  induction tbl generalizing acc with
  | nil => simp
  | cons p rest ih =>
      by_cases hc : cond p
      · simp [hc, ih, List.append_assoc]
      · simp [hc, ih]

/-- C7 (amended): term extraction returns at most 10 terms: first the label
and full trigger set of every topic whose triggers occur in the lower-cased
question, then the question's *identifier-shaped* tokens — a letter or
underscore followed by at least two letters, digits or underscores, per the
extraction pattern `[a-zA-Z_][a-zA-Z0-9_]{2,}` — that are not stop-words,
deduplicated preserving first occurrence and truncated to 10. -/
theorem C7_amended (q : String) :
    _extract_terms q
      = (dedupeSeen []
          (((QUESTION_PATTERNS.filter
              (fun p => p.2.any (fun kw => pyIn kw (pyLower q)))).flatMap (fun p => p.1 :: p.2))
            ++ (findTokens (pyLower q).data).filter (fun t => !(STOPWORDS.contains t)))).take 10
      ∧ (_extract_terms q).length ≤ 10 := by
  constructor
  · unfold _extract_terms
    dsimp only
    rw [topicFold_eq]
    simp
  · unfold _extract_terms
    dsimp only
    simp [List.length_take]

/-- C7 counterexample: the question `"999"`.  Its only maximal alphanumeric
run of length ≥ 3 is `"999"`, so the claim's reading of extraction returns
`["999"]`; the code's token pattern requires a letter or underscore first, so
`_extract_terms` returns `[]`. -/
theorem C7_counterexample :
    _extract_terms "999" = [] ∧ specClaimTerms "999" = ["999"] := by
  have h9s : isTokenStart '9' = false := by decide
  have h9a : Char.isAlphanum '9' = true := by decide
  have hq : pyLower "999" = "999" := rfl
  have hdata : ("999" : String).data = ['9', '9', '9'] := rfl
  have hFind : findTokens ['9', '9', '9'] = [] := by
    simp [findTokens, h9s]
  have hSpec : specAlnumTokens ['9', '9', '9'] = ["999"] := by
    simp [specAlnumTokens, h9a]
  constructor
  · unfold _extract_terms
    dsimp only
    rw [hq, hdata, hFind]
    decide
  · unfold specClaimTerms
    dsimp only
    rw [hq, hdata, hSpec]
    decide

/-- A substring of `a` is a substring of `a ++ b`. -/
theorem pyIn_append_right (t a b : String) (h : pyIn t a = true) : pyIn t (a ++ b) = true := by
  simp only [pyIn, decide_eq_true_eq] at h ⊢
  exact h.trans ⟨[], b.data, by simp⟩

/-- Lowering distributes over concatenation. -/
theorem pyLower_append (a b : String) : pyLower (a ++ b) = pyLower a ++ pyLower b := by
  show String.mk ((a.data ++ b.data).map Char.toLower) = _
  rw [List.map_append]
  rfl

/-- A term found in the lowered symbol name is found in the concatenated
name/path/relation-type haystack. -/
theorem pyIn_sym_hay (t : String) (row : EvRow) (h : pyIn t (pyLower row.symbol) = true) :
    pyIn t (evHay row) = true := by
  have e : evHay row
      = pyLower row.symbol ++ pyLower " " ++ pyLower row.path ++ pyLower " "
          ++ pyLower row.relation_type := by
    simp [evHay, pyLower_append]
  rw [e]
  exact pyIn_append_right _ _ _ (pyIn_append_right _ _ _ (pyIn_append_right _ _ _
    (pyIn_append_right _ _ _ h)))

/-- The code's filtered-comprehension score equals the specification's
per-term sum formula. -/
theorem evScore_eq_spec (terms : List String) (row : EvRow) :
    evScore terms row = specEvScore terms row := by
  unfold evScore specEvScore
  congr 1
  induction terms with
  | nil => rfl
  | cons t ts ih =>
      by_cases hh : pyIn t (evHay row) = true
      · by_cases hs : pyIn t (pyLower row.symbol) = true
        · simp [List.filter_cons, termScore, hh, hs, ih]
        · simp [List.filter_cons, termScore, hh, hs, ih]
      · have hs : ¬ pyIn t (pyLower row.symbol) = true := by
          intro hc
          exact hh (pyIn_sym_hay t row hc)
        simp [List.filter_cons, termScore, hh, hs, ih]

/-- A sum strictly dominates another when it dominates pointwise and strictly
at one member. -/
theorem sum_lt_sum_of_mem (l : List String) (f g : String → Nat)
    (hle : ∀ u ∈ l, g u ≤ f u) (t : String) (ht : t ∈ l) (hlt : g t < f t) :
    (l.map g).sum < (l.map f).sum := by
  induction l with
  | nil => cases ht
  | cons x xs ih =>
      rcases List.mem_cons.mp ht with rfl | hmem
      · have hrest : (xs.map g).sum ≤ (xs.map f).sum :=
          List.sum_le_sum (fun u hu => hle u (List.mem_cons_of_mem _ hu))
        simp only [List.map_cons, List.sum_cons]
        omega
      · have h1 : g x ≤ f x := hle x (List.mem_cons_self x xs)
        have h2 := ih (fun u hu => hle u (List.mem_cons_of_mem _ hu)) hmem
        simp only [List.map_cons, List.sum_cons]
        omega

instance : IsTotal (Nat × EvRow) scoreDesc := ⟨fun a b => by unfold scoreDesc; omega⟩

instance : IsTrans (Nat × EvRow) scoreDesc :=
  ⟨fun a b c h1 h2 => by
    unfold scoreDesc at *
    omega⟩

/-- C6: every candidate's score equals the sum over terms of (2 if the term
occurs in the symbol name, else 1 if it occurs in the concatenated
name/path/relation-type text, else 0) plus the flat +2 `calls`/`imports`
bonus; a candidate matching a term in its symbol name strictly out-scores one
equal in every other respect that matches the term only elsewhere (e.g. its
file path); and the ranking is sorted descending by score — together: the
symbol-name match ranks at or above the path-only match. -/
theorem C6_ranking :
    (∀ (terms : List String) (row : EvRow), evScore terms row = specEvScore terms row) ∧
    (∀ (terms : List String) (t : String) (a b : EvRow),
      t ∈ terms → pyIn t (pyLower a.symbol) = true → pyIn t (pyLower b.symbol) = false →
      pyIn t (evHay b) = true → a.relation_type = b.relation_type →
      (∀ u ∈ terms, u ≠ t → termScore a u = termScore b u) →
      evScore terms b < evScore terms a) ∧
    (∀ (terms : List String) (rows : List EvRow),
      (List.insertionSort scoreDesc (rows.map (fun r => (evScore terms r, r)))).Pairwise
        scoreDesc) := by
  refine ⟨evScore_eq_spec, ?_, ?_⟩
  · intro terms t a b ht ha hb1 hb2 hrt hoth
    rw [evScore_eq_spec, evScore_eq_spec]
    unfold specEvScore
    rw [hrt]
    have hsum : (terms.map (termScore b)).sum < (terms.map (termScore a)).sum := by
      apply sum_lt_sum_of_mem terms (termScore a) (termScore b) ?_ t ht ?_
      · intro u hu
        by_cases he : u = t
        · subst he
          simp [termScore, ha, hb1, hb2]
        · rw [hoth u hu he]
      · simp [termScore, ha, hb1, hb2]
    omega
  · intro terms rows
    exact List.sorted_insertionSort scoreDesc _

/-- C6 witness: with the single term `"auth"`, the row whose symbol is
`auth_user` strictly out-scores the row equal in relation type whose path
alone contains `auth`. -/
theorem C6_ranking_witness :
    evScore ["auth"] ⟨"auth/x.py", "zzz", "function", "declares", some 1⟩
      < evScore ["auth"] ⟨"x.py", "auth_user", "function", "declares", some 1⟩ :=
  C6_ranking.2.1 ["auth"] "auth" ⟨"x.py", "auth_user", "function", "declares", some 1⟩
    ⟨"auth/x.py", "zzz", "function", "declares", some 1⟩ (by decide) (by decide) (by decide)
    (by decide) (by decide) (by decide)

/-- NULLS-first ordering is transitive. -/
theorem nullsFirstLe_trans (a b c : Option Nat) (h1 : nullsFirstLe a b) (h2 : nullsFirstLe b c) :
    nullsFirstLe a c := by
  unfold nullsFirstLe at *
  cases a <;> cases b <;> cases c <;> simp_all
  omega

/-- NULLS-first ordering is total. -/
theorem nullsFirstLe_total (a b : Option Nat) : nullsFirstLe a b ∨ nullsFirstLe b a := by
  unfold nullsFirstLe
  cases a <;> cases b <;> simp
  omega

instance : IsTrans CallerRow callerRowLe :=
  ⟨fun a b c h1 h2 => by
    unfold callerRowLe at *
    rcases h1 with h1 | ⟨h1e, h1l⟩ <;> rcases h2 with h2 | ⟨h2e, h2l⟩
    · exact Or.inl (lt_trans h1 h2)
    · exact Or.inl (h2e ▸ h1)
    · exact Or.inl (h1e ▸ h2)
    · exact Or.inr ⟨h1e.trans h2e, nullsFirstLe_trans _ _ _ h1l h2l⟩⟩

instance : IsTotal CallerRow callerRowLe :=
  ⟨fun a b => by
    unfold callerRowLe
    rcases lt_trichotomy a.path b.path with h | h | h
    · exact Or.inl (Or.inl h)
    · rcases nullsFirstLe_total a.lineno b.lineno with hl | hl
      · exact Or.inl (Or.inr ⟨h, hl⟩)
      · exact Or.inr (Or.inr ⟨h.symm, hl⟩)
    · exact Or.inr (Or.inl h)⟩

/-- A `filterMap` whose function succeeds on every element drops nothing. -/
theorem filterMap_length_of_isSome {α β : Type} (l : List α) (g : α → Option β)
    (h : ∀ a ∈ l, (g a).isSome) : (l.filterMap g).length = l.length := by
  induction l with
  | nil => rfl
  | cons x xs ih =>
      have hx := h x (List.mem_cons_self x xs)
      rcases Option.isSome_iff_exists.mp hx with ⟨b, hb⟩
      rw [List.filterMap_cons, hb]
      simp only [List.length_cons]
      rw [ih (fun a ha => h a (List.mem_cons_of_mem _ ha))]

/-- C5: `callers_of` returns exactly the `calls` relations whose destination
equals the requested name, one joined row per qualifying relation (under the
data-model invariant that every relation's `file_id` references an existing
file row, the inner file join drops nothing; the caller field is null when
`src_symbol_id` is null or dangling, by `callerRowOf`), the result is sorted
by file path then line ascending, and when nothing matches — including when
the destination name matches no declared symbol — the result is simply empty;
the query is a pure read and cannot raise. -/
theorem C5_callers_of (s : Store) (name : String)
    (hinv : ∀ r ∈ s.relations, ∃ f ∈ s.files, f.id = r.file_id) :
    List.Perm (callers_of s name) ((callRels s name).filterMap (callerRowOf s))
    ∧ ((callRels s name).filterMap (callerRowOf s)).length = (callRels s name).length
    ∧ (callers_of s name).Pairwise callerRowLe
    ∧ (callRels s name = [] → callers_of s name = []) := by
  refine ⟨List.perm_insertionSort callerRowLe _, ?_, List.sorted_insertionSort callerRowLe _, ?_⟩
  · apply filterMap_length_of_isSome
    intro r hr
    have hmem : r ∈ s.relations := List.mem_of_mem_filter hr
    rcases hinv r hmem with ⟨f, hf, hid⟩
    have : (s.files.find? (fun g => g.id == r.file_id)).isSome := by
      rw [List.find?_isSome]
      exact ⟨f, hf, by simp [hid]⟩
    unfold callerRowOf
    cases hfind : s.files.find? (fun g => g.id == r.file_id) with
    | none => rw [hfind] at this; cases this
    | some f' => simp
  · intro hnil
    unfold callers_of
    rw [hnil]
    rfl

/-- C5 witness: a store whose single `calls` relation is dangling (destination
`"g"` matches no symbol row, and its originating symbol id is NULL) — the
query returns the one joined row with a null caller, sorted, and nothing is
dropped. -/
theorem C5_callers_of_witness :
    List.Perm (callers_of ⟨[⟨1, "a.py", "python"⟩], [], [⟨1, none, "g", "calls", 1, some 3⟩]⟩ "g")
        ((callRels ⟨[⟨1, "a.py", "python"⟩], [], [⟨1, none, "g", "calls", 1, some 3⟩]⟩ "g").filterMap
          (callerRowOf ⟨[⟨1, "a.py", "python"⟩], [], [⟨1, none, "g", "calls", 1, some 3⟩]⟩))
      ∧ ((callRels ⟨[⟨1, "a.py", "python"⟩], [], [⟨1, none, "g", "calls", 1, some 3⟩]⟩ "g").filterMap
          (callerRowOf ⟨[⟨1, "a.py", "python"⟩], [], [⟨1, none, "g", "calls", 1, some 3⟩]⟩)).length
        = (callRels ⟨[⟨1, "a.py", "python"⟩], [], [⟨1, none, "g", "calls", 1, some 3⟩]⟩ "g").length
      ∧ (callers_of ⟨[⟨1, "a.py", "python"⟩], [], [⟨1, none, "g", "calls", 1, some 3⟩]⟩ "g").Pairwise
          callerRowLe
      ∧ (callRels ⟨[⟨1, "a.py", "python"⟩], [], [⟨1, none, "g", "calls", 1, some 3⟩]⟩ "g" = [] →
          callers_of ⟨[⟨1, "a.py", "python"⟩], [], [⟨1, none, "g", "calls", 1, some 3⟩]⟩ "g" = []) :=
  C5_callers_of ⟨[⟨1, "a.py", "python"⟩], [], [⟨1, none, "g", "calls", 1, some 3⟩]⟩ "g"
    (by decide)

/-- The unique-key conflict test splits into the file test and the in-file
clash test. -/
theorem symUniqueConflict_split (r : SymbolRow) (fid : Nat) (sym : PySymbol) :
    symUniqueConflict r fid sym.name sym.kind sym.lineno
      = ((r.file_id == fid) && symClash (symRowToSymbol r) sym) := by
  unfold symUniqueConflict symClash symRowToSymbol
  cases hrl : r.lineno <;> cases hsl : sym.lineno <;> simp [Bool.and_assoc]

/-- Scanning the whole table for a unique-key conflict is scanning the rows
of the one file. -/
theorem any_conflict_eq (rows : List SymbolRow) (fid : Nat) (sym : PySymbol) :
    rows.any (fun r => symUniqueConflict r fid sym.name sym.kind sym.lineno)
      = ((rows.filter (fun r => r.file_id == fid)).map symRowToSymbol).any
          (fun p => symClash p sym) := by
  induction rows with
  | nil => rfl
  | cons r rest ih =>
      simp only [List.any_cons, symUniqueConflict_split, List.filter_cons]
      simp only [symUniqueConflict_split] at ih
      by_cases hf : (r.file_id == fid) = true
      · simp [hf, ih]
      · simp [hf, ih]

/-- `upsert_file` on a path not yet stored: a row with a fresh rowid is
appended and its id returned. -/
theorem upsert_file_fresh (s : Store) (path lang : String)
    (h : ∀ r ∈ s.files, r.path ≠ path) :
    upsert_file s path lang
      = (nextId (s.files.map (fun r => r.id)),
         { s with files := s.files ++ [⟨nextId (s.files.map (fun r => r.id)), path, lang⟩] }) := by
  have hany : s.files.any (fun r => r.path == path) = false :=
    List.any_eq_false.mpr (fun x hx => by simp [h x hx])
  have hnone : s.files.find? (fun r => r.path == path) = none :=
    List.find?_eq_none.mpr (fun x hx => by simp [h x hx])
  simp only [upsert_file, hany, Bool.false_eq_true, if_false]
  rw [List.find?_append, hnone]
  simp

/-- The symbol loop over one file with a given set of already-present rows of
that file: it appends exactly the `keptSyms` rows, all carrying the file's
id, and touches nothing else. -/
theorem symFold_char (fid : Nat) (syms : List PySymbol) :
    ∀ (s : Store) (m0 : String → Option Nat) (kept : List PySymbol),
    (s.symbols.filter (fun r => r.file_id == fid)).map symRowToSymbol = kept →
    ∃ new : List SymbolRow,
      (syms.foldl (symStep fid) (s, m0)).1 = { s with symbols := s.symbols ++ new }
      ∧ new.map symRowToSymbol = keptSyms kept syms
      ∧ ∀ r ∈ new, r.file_id = fid := by
  induction syms with
  | nil =>
      intro s m0 kept hk
      exact ⟨[], by simp, by simp [keptSyms], by simp⟩
  | cons sym rest ih =>
      intro s m0 kept hk
      by_cases hcl : kept.any (fun p => symClash p sym) = true
      · have hany : s.symbols.any
            (fun r => symUniqueConflict r fid sym.name sym.kind sym.lineno) = true := by
          rw [any_conflict_eq, hk]
          exact hcl
        have heq := insert_symbol_true s fid sym.name sym.kind sym.lineno hany
        have hstep : symStep fid (s, m0) sym
            = (s, fun n => if n == sym.name
                then some (insert_symbol s fid sym.name sym.kind sym.lineno).1
                else m0 n) := by
          unfold symStep
          rw [heq]
        rcases ih s _ kept hk with ⟨new, h1, h2, h3⟩
        refine ⟨new, ?_, ?_, h3⟩
        · rw [List.foldl_cons, hstep, h1]
        · rw [h2]
          simp [keptSyms, hcl]
      · have hany : s.symbols.any
            (fun r => symUniqueConflict r fid sym.name sym.kind sym.lineno) = false := by
          rw [any_conflict_eq, hk]
          exact Bool.not_eq_true _ ▸ hcl
        have heq := insert_symbol_false s fid sym.name sym.kind sym.lineno hany
        have hstep : symStep fid (s, m0) sym
            = ({ s with symbols := s.symbols ++
                  [⟨nextId (s.symbols.map (fun r => r.id)), fid, sym.name, sym.kind,
                    sym.lineno⟩] },
               fun n => if n == sym.name
                then some (insert_symbol s fid sym.name sym.kind sym.lineno).1
                else m0 n) := by
          unfold symStep
          rw [heq]
        have hk' : (({ s with symbols := s.symbols ++
              [⟨nextId (s.symbols.map (fun r => r.id)), fid, sym.name, sym.kind,
                sym.lineno⟩] } : Store).symbols.filter
              (fun r => r.file_id == fid)).map symRowToSymbol = kept ++ [sym] := by
          simp only [List.filter_append, List.map_append, hk]
          simp [symRowToSymbol]
        rcases ih _ _ (kept ++ [sym]) hk' with ⟨new, h1, h2, h3⟩
        refine ⟨⟨nextId (s.symbols.map (fun r => r.id)), fid, sym.name, sym.kind,
          sym.lineno⟩ :: new, ?_, ?_, ?_⟩
        · rw [List.foldl_cons, hstep, h1]
          simp
        · simp only [List.map_cons, h2]
          simp [keptSyms, hcl, symRowToSymbol]
        · intro r hr
          rcases List.mem_cons.mp hr with rfl | hmem
          · rfl
          · exact h3 r hmem

/-- The relation loop appends one row per analyzer relation, preserving the
relation content. -/
theorem relFold_char (fid : Nat) (sm : String → Option Nat) (rels : List PyRelation) :
    ∀ s : Store,
    ∃ new : List RelationRow,
      rels.foldl (relStep fid sm) s = { s with relations := s.relations ++ new }
      ∧ new.map relFields
          = rels.map (fun r => (r.dst_symbol_name, r.relation_type, r.lineno)) := by
  induction rels with
  | nil =>
      intro s
      exact ⟨[], by simp, rfl⟩
  | cons rel rest ih =>
      intro s
      rcases ih (relStep fid sm s rel) with ⟨new, h1, h2⟩
      refine ⟨⟨nextId (s.relations.map (fun r => r.id)), sm (rel.src_symbol_name.getD ""),
        rel.dst_symbol_name, rel.relation_type, fid, rel.lineno⟩ :: new, ?_, ?_⟩
      · rw [List.foldl_cons, h1]
        simp [relStep, insert_relation]
      · simp [relFields, h2]

/-- `upsert_file` never touches the symbols table. -/
theorem upsert_keeps_symbols (s : Store) (path lang : String) :
    (upsert_file s path lang).2.symbols = s.symbols := by
  unfold upsert_file
  dsimp only
  split <;> rfl

/-- `upsert_file` never touches the relations table. -/
theorem upsert_keeps_relations (s : Store) (path lang : String) :
    (upsert_file s path lang).2.relations = s.relations := by
  unfold upsert_file
  dsimp only
  split <;> rfl

/-- Indexing one file of a fresh path into a store whose symbols all belong
to existing files: exactly one file row is added, and the symbol/relation
rows added carry exactly the file's analysis content. -/
theorem processFile_char (p : String) (src : SrcFile) (s : Store)
    (hpath : ∀ r ∈ s.files, r.path ≠ p)
    (hsym : ∀ r ∈ s.symbols, r.file_id ∈ s.files.map (fun fr => fr.id)) :
    ∃ (newS : List SymbolRow) (newR : List RelationRow),
      processFile p src s
        = { s with
            files := s.files ++ [⟨nextId (s.files.map (fun r => r.id)), p,
              (analyze_file src).language⟩],
            symbols := s.symbols ++ newS,
            relations := s.relations ++ newR }
      ∧ newS.map symRowToSymbol = keptSyms [] (analyze_file src).symbols
      ∧ (∀ r ∈ newS, r.file_id = nextId (s.files.map (fun fr => fr.id)))
      ∧ newR.map relFields = (analyze_file src).relations.map
          (fun r => (r.dst_symbol_name, r.relation_type, r.lineno)) := by
  unfold processFile
  dsimp only
  rw [upsert_file_fresh s p (analyze_file src).language hpath]
  dsimp only
  have hfilter : ((({ s with files := s.files ++ [⟨nextId (s.files.map (fun r => r.id)), p,
      (analyze_file src).language⟩] } : Store)).symbols.filter
        (fun r => r.file_id == nextId (s.files.map (fun r => r.id)))).map symRowToSymbol
      = [] := by
    have hker : (({ s with files := s.files ++ [⟨nextId (s.files.map (fun r => r.id)), p,
        (analyze_file src).language⟩] } : Store)).symbols.filter
          (fun r => r.file_id == nextId (s.files.map (fun r => r.id))) = [] := by
      apply List.filter_eq_nil_iff.mpr
      intro r hr
      have hrs : r ∈ s.symbols := hr
      have hne : r.file_id ≠ nextId (s.files.map (fun fr => fr.id)) := by
        intro hcontra
        have hmem := hsym r hrs
        rw [hcontra] at hmem
        exact nextId_not_mem _ hmem
      simp [hne]
    rw [hker]
    rfl
  rcases symFold_char (nextId (s.files.map (fun r => r.id))) (analyze_file src).symbols
      ({ s with files := s.files ++ [⟨nextId (s.files.map (fun r => r.id)), p,
        (analyze_file src).language⟩] }) (fun _ => none) [] hfilter
    with ⟨newS, h1, h2, h3⟩
  rw [h1]
  rcases relFold_char (nextId (s.files.map (fun r => r.id)))
      ((List.foldl (symStep (nextId (s.files.map (fun r => r.id))))
        ({ s with files := s.files ++ [⟨nextId (s.files.map (fun r => r.id)), p,
          (analyze_file src).language⟩] }, fun _ => none) (analyze_file src).symbols).2)
      (analyze_file src).relations
      ({ s with
          files := s.files ++ [⟨nextId (s.files.map (fun r => r.id)), p,
            (analyze_file src).language⟩],
          symbols := s.symbols ++ newS })
    with ⟨newR, g1, g2⟩
  rw [g1]
  exact ⟨newS, newR, rfl, h2, h3, g2⟩

/-- The full per-file loop over a tree of distinct fresh paths: the stored
symbol and relation content is exactly the concatenation of each file's
derived content, and the file table gains exactly the tree's paths. -/
theorem runFiles_char (tree : List TreeFile) :
    ∀ s : Store,
    (∀ tf ∈ tree, ∀ r ∈ s.files, r.path ≠ tf.path) →
    ((tree.map TreeFile.path).Nodup) →
    (∀ r ∈ s.symbols, r.file_id ∈ s.files.map (fun fr => fr.id)) →
    (runFiles tree s).symbols.map symFields
        = s.symbols.map symFields ++ tree.flatMap derivedSymbols
    ∧ (runFiles tree s).relations.map relFields
        = s.relations.map relFields ++ tree.flatMap derivedRelations
    ∧ (runFiles tree s).files.map (fun fr => fr.path)
        = s.files.map (fun fr => fr.path) ++ tree.map TreeFile.path := by
  induction tree with
  | nil =>
      intro s _ _ _
      simp [runFiles]
  | cons tf rest ih =>
      intro s hpaths hnodup hsym
      have hp : ∀ r ∈ s.files, r.path ≠ tf.path :=
        hpaths tf (List.mem_cons_self tf rest)
      rcases processFile_char tf.path tf.src s hp hsym with ⟨newS, newR, h1, h2, h3, h4⟩
      have hrun : runFiles (tf :: rest) s = runFiles rest (processFile tf.path tf.src s) := rfl
      have htfrest : tf.path ∉ rest.map TreeFile.path := by
        have := hnodup
        simp only [List.map_cons, List.nodup_cons] at this
        exact this.1
      have hpaths' : ∀ tf' ∈ rest, ∀ r ∈ (processFile tf.path tf.src s).files,
          r.path ≠ tf'.path := by
        intro tf' htf' r hr
        rw [h1] at hr
        rcases List.mem_append.mp hr with hold | hnew
        · exact hpaths tf' (List.mem_cons_of_mem _ htf') r hold
        · have : r.path = tf.path := by
            rcases List.mem_singleton.mp hnew with rfl
            rfl
          rw [this]
          intro hcontra
          exact htfrest (hcontra ▸ List.mem_map_of_mem TreeFile.path htf')
      have hnodup' : (rest.map TreeFile.path).Nodup := by
        simp only [List.map_cons, List.nodup_cons] at hnodup
        exact hnodup.2
      have hsym' : ∀ r ∈ (processFile tf.path tf.src s).symbols,
          r.file_id ∈ (processFile tf.path tf.src s).files.map (fun fr => fr.id) := by
        intro r hr
        rw [h1] at hr ⊢
        simp only [List.map_append]
        rcases List.mem_append.mp hr with hold | hnew
        · exact List.mem_append_left _ (hsym r hold)
        · apply List.mem_append_right
          rw [h3 r hnew]
          simp
      rcases ih (processFile tf.path tf.src s) hpaths' hnodup' hsym' with ⟨i1, i2, i3⟩
      have hSfields : newS.map symFields = derivedSymbols tf := by
        unfold derivedSymbols
        rw [← h2, List.map_map]
        rfl
      have hRfields : newR.map relFields = derivedRelations tf := by
        unfold derivedRelations
        exact h4
      refine ⟨?_, ?_, ?_⟩
      · rw [hrun, i1, h1]
        simp [hSfields, List.append_assoc]
      · rw [hrun, i2, h1]
        simp [hRfields, List.append_assoc]
      · rw [hrun, i3, h1]
        simp [List.append_assoc]

/-- C8: `analyze_file` cannot raise — on read failure or parse failure it
returns the file's language with empty symbol and relation lists; indexing
such a file writes nothing but its file row into any store; and a tree
holding one malformed file among N valid ones (bad file in any position)
stores exactly the symbol and relation content derived from the N valid
files. -/
theorem C8_resilience :
    (∀ f : SrcFile, f.read = none ∨ f.read = some none →
      analyze_file f = ⟨"python", [], []⟩) ∧
    (∀ (p : String) (f : SrcFile) (s : Store), f.read = none ∨ f.read = some none →
      (processFile p f s).symbols = s.symbols ∧ (processFile p f s).relations = s.relations) ∧
    (∀ (pre post : List TreeFile) (bad : TreeFile),
      bad.src.read = none ∨ bad.src.read = some none →
      ((pre ++ bad :: post).map TreeFile.path).Nodup →
      (runFiles (pre ++ bad :: post) emptyStore).symbols.map symFields
          = (pre ++ post).flatMap derivedSymbols
        ∧ (runFiles (pre ++ bad :: post) emptyStore).relations.map relFields
          = (pre ++ post).flatMap derivedRelations) := by
  have ha : ∀ f : SrcFile, f.read = none ∨ f.read = some none →
      analyze_file f = ⟨"python", [], []⟩ := by
    intro f hf
    rcases hf with hf | hf <;> (unfold analyze_file; rw [hf]) <;> rfl
  have hb : ∀ (p : String) (f : SrcFile) (s : Store), f.read = none ∨ f.read = some none →
      (processFile p f s).symbols = s.symbols
        ∧ (processFile p f s).relations = s.relations := by
    intro p f s hf
    unfold processFile
    rw [ha f hf]
    dsimp only
    exact ⟨upsert_keeps_symbols s p "python", upsert_keeps_relations s p "python"⟩
  refine ⟨ha, hb, ?_⟩
  intro pre post bad hbad hnodup
  have hchar := runFiles_char (pre ++ bad :: post) emptyStore
    (by intro tf _ r hr; cases hr) hnodup (by intro r hr; cases hr)
  have hbadS : derivedSymbols bad = [] := by
    unfold derivedSymbols
    rw [ha bad.src hbad]
    simp [keptSyms]
  have hbadR : derivedRelations bad = [] := by
    unfold derivedRelations
    rw [ha bad.src hbad]
    simp
  refine ⟨?_, ?_⟩
  · rw [hchar.1]
    simp [hbadS, emptyStore]
  · rw [hchar.2.1]
    simp [hbadR, emptyStore]

/-- C8 witness: one parsable file declaring `f` alongside one file whose
parse fails — the stored content is exactly the valid file's. -/
theorem C8_resilience_witness :
    (runFiles [⟨"ok.py", ⟨some (some [.functionDef "f" 1 []])⟩⟩, ⟨"bad.py", ⟨some none⟩⟩]
        emptyStore).symbols.map symFields
      = ([(⟨"ok.py", ⟨some (some [.functionDef "f" 1 []])⟩⟩ : TreeFile)]
          ++ ([] : List TreeFile)).flatMap derivedSymbols
    ∧ (runFiles [⟨"ok.py", ⟨some (some [.functionDef "f" 1 []])⟩⟩, ⟨"bad.py", ⟨some none⟩⟩]
        emptyStore).relations.map relFields
      = ([(⟨"ok.py", ⟨some (some [.functionDef "f" 1 []])⟩⟩ : TreeFile)]
          ++ ([] : List TreeFile)).flatMap derivedRelations :=
  C8_resilience.2.2 [⟨"ok.py", ⟨some (some [.functionDef "f" 1 []])⟩⟩] []
    ⟨"bad.py", ⟨some none⟩⟩ (Or.inr rfl) (by decide)
